import Mathlib

/-!
Shallow embedding of the asciigen repository core (src/ascii_generator.rs,
src/genetic_algorithm.rs, src/brute_force.rs) and proofs about it.

Conventions of the embedding:
* grayscale images (`image::ImageBuffer<Luma<u8>, Vec<u8>>`) become the `Img`
  structure: a width, a height and a row-major list of pixel intensities;
* `u8` intensities and character codes become `Nat` (all source arithmetic on
  them stays within range, no wrap occurs);
* `f64` scores become `Rat`: every float produced by the fitness code is a sum
  of the constants 1.0, 0.01, 0.005 and quotients thereof, which `Rat` models
  exactly;
* thread_rng draws become an explicit `Rng` oracle holding a stream of float
  draws (each in [0,1), as rand's gen::<f64>() produces) and a stream of
  integer draws (`gen_range(0..n)` is modelled as the next stream value mod n);
* wall-clock time (Instant/elapsed) and console printing are not modelled;
  progress callbacks are modelled by their cancellation decision, a function
  from the 1-based step number to Bool.
-/

/-- Grayscale image: width, height and row-major pixel data, the embedding of
`ImageBuffer<Luma<u8>, Vec<u8>>`. -/
structure Img where
  width : Nat
  height : Nat
  data : List Nat
deriving DecidableEq, Repr

/-- Pixel read at (x, y), the embedding of `get_pixel(x, y)[0]` for in-bounds
coordinates (row-major index `y*width + x`). -/
def Img.get (img : Img) (x y : Nat) : Nat :=
  img.data.getD (y * img.width + x) 0

/-- Pixel write at (x, y), the embedding of `put_pixel(x, y, Luma([v]))` for
in-bounds coordinates. -/
def Img.put (img : Img) (x y v : Nat) : Img :=
  { img with data := img.data.set (y * img.width + x) v }

/-- Intensity inversion of a whole image (`255 - pixel` at every pixel), used
by `generate_ascii_image_with_background` for its white-background mode. -/
def Img.invert (img : Img) : Img :=
  { img with data := img.data.map (fun p => 255 - p) }

/-- Character renderer and cache (src/ascii_generator.rs, `AsciiGenerator`):
the cell size and the map from character code to cached cell bitmap.  Font
rasterization is an external collaborator, so the cache contents are data. -/
structure AsciiGen where
  char_width : Nat
  char_height : Nat
  cache : Nat → Option Img

/-- Allowed character set (src/genetic_algorithm.rs line 9, `ALLOWED_CHARS`),
as ASCII codes: the bytes of the string starting with the space character. -/
def ALLOWED_CHARS : List Nat :=
  [32, 60, 62, 44, 46, 47, 63, 92, 124, 91, 93, 123, 125, 45, 95, 61, 43,
   65, 118, 86, 105, 73, 111, 79, 120, 88, 119, 87, 77, 96, 126, 59, 58,
   39, 34, 33, 64, 35, 36, 37, 94, 38, 42, 40, 41, 56]

/-- Inner loop body of `copy_char_to_image` (src/ascii_generator.rs lines
135-142): one row of the character cell, x running from 0 to `xc - 1`,
each pixel copied only when it lands inside the target bounds. -/
def copyRowGo (ci : Img) (sx sy y : Nat) : Nat → Img → Img
  | 0, img => img
  | x + 1, img =>
    let img0 := copyRowGo ci sx sy y x img
    if sx + x < img0.width ∧ sy + y < img0.height then
      img0.put (sx + x) (sy + y) (ci.get x y)
    else img0

/-- Outer loop of `copy_char_to_image`: y running from 0 to `yc - 1`. -/
def copyGo (ci : Img) (sx sy xc : Nat) : Nat → Img → Img
  | 0, img => img
  | y + 1, img => copyRowGo ci sx sy y xc (copyGo ci sx sy xc y img)

/-- Embedding of `AsciiGenerator::copy_char_to_image` (src/ascii_generator.rs
lines 128-143): copies the cell bitmap `ci` into `target` at offset
(sx, sy), clipped to the target bounds. -/
def copy_char_to_image (g : AsciiGen) (target ci : Img) (sx sy : Nat) : Img :=
  copyGo ci sx sy g.char_width g.char_height target

/-- Character-placing loop of `generate_ascii_image_with_background`
(src/ascii_generator.rs lines 102-122): iterates the character list with its
index `i`, computes the cell column `i % w` and row `i / w`, stops (`break`)
as soon as the row reaches `h`, skips codes absent from the cache, and inverts
the cell bitmap first in white-background mode.  The source computes `i % w`
before the break test and Rust panics on modulo by zero, so the embedding is
only used under `0 < w`. -/
def placeChars (g : AsciiGen) (white : Bool) (w h : Nat) : List Nat → Nat → Img → Img
  | [], _, img => img
  | c :: rest, i, img =>
    if h ≤ i / w then img
    else
      placeChars g white w h rest (i + 1)
        (match g.cache c with
         | some ci =>
             copy_char_to_image g img (if white then ci.invert else ci)
               ((i % w) * g.char_width) ((i / w) * g.char_height)
         | none => img)

/-- Embedding of `AsciiGenerator::generate_ascii_image_with_background`
(src/ascii_generator.rs lines 91-125): a `w*char_width` by `h*char_height`
buffer filled with the background intensity (255 white, 0 black), then every
cached character tiled in at `(col*char_width, row*char_height)`. -/
def generate_ascii_image_with_background (g : AsciiGen) (chars : List Nat)
    (w h : Nat) (white : Bool) : Img :=
  placeChars g white w h chars 0
    ⟨w * g.char_width, h * g.char_height,
     List.replicate (w * g.char_width * (h * g.char_height)) (if white then 255 else 0)⟩

/-- Embedding of `AsciiGenerator::generate_ascii_image` (src/ascii_generator.rs
lines 86-88): the black-background variant. -/
def generate_ascii_image (g : AsciiGen) (chars : List Nat) (w h : Nat) : Img :=
  generate_ascii_image_with_background g chars w h false

/-- Character-emitting loop of `AsciiGenerator::individual_to_string`
(src/ascii_generator.rs lines 149-154), producing the character list of the
result string: before the character at index `i` a newline is pushed when
`i > 0 && i % width == 0`. -/
def itsGo (w : Nat) : List Nat → Nat → List Char
  | [], _ => []
  | c :: rest, i =>
    (if 0 < i ∧ i % w = 0 then [Char.ofNat 10] else []) ++
      Char.ofNat c :: itsGo w rest (i + 1)

/-- Embedding of `AsciiGenerator::individual_to_string` (src/ascii_generator.rs
lines 146-157) on the individual's character list. -/
def individual_to_string (chars : List Nat) (w : Nat) : String :=
  String.mk (itsGo w chars 0)

/-- Pixel classification used by every fitness evaluator in the source
(`pixel > background_threshold`, src/genetic_algorithm.rs lines 373-374,
src/brute_force.rs lines 179, 187, 233-234): the same strict "above
threshold" test in both background modes. -/
def evalIsLit (thr p : Nat) : Bool := thr < p

/-- Pixel classification of `count_non_background_pixels`
(src/genetic_algorithm.rs lines 223-227 and src/brute_force.rs lines 52-56):
below the threshold in white-background mode, above it otherwise. -/
def countIsLit (white : Bool) (thr p : Nat) : Bool :=
  if white then p < thr else thr < p

/-- Modelled from the spec: the spec's foreground classification for fitness
evaluation, "lit = above threshold in dark-background mode, below threshold
in light-background mode" (spec section 4.2).  Kept separate from the source
definitions so the two can be compared. -/
def specIsLit (white : Bool) (thr p : Nat) : Bool :=
  if white then p < thr else thr < p

/-- Embedding of `count_non_background_pixels` (identical in
src/genetic_algorithm.rs lines 211-235 and src/brute_force.rs lines 42-64):
counts the pixels of the target classified as non-background. -/
def count_non_background_pixels (target : Img) (thr : Nat) (white : Bool) : Nat :=
  target.data.countP (fun p => countIsLit white thr p)

/-- Score contribution of one pixel of the whole-grid fitness loop
(src/genetic_algorithm.rs lines 369-391 and src/brute_force.rs lines 230-243):
`+1` for a lit target pixel matched within tolerance 30, `-pen` for a false
positive, `0` otherwise.  `pen` is 1/100 in the genetic evaluator and 1/200
in the brute-force evaluator. -/
def pixScore (pen : Rat) (thr ap tp : Nat) : Rat :=
  if evalIsLit thr tp then
    (if ((ap : Int) - (tp : Int)).natAbs < 30 then 1 else 0)
  else if evalIsLit thr ap then -pen else 0

/-- Row of the whole-grid fitness loop: x running from 0 to `mw - 1`. -/
def rowScore (pen : Rat) (thr : Nat) (a t : Img) (y : Nat) : Nat → Rat
  | 0 => 0
  | x + 1 => rowScore pen thr a t y x + pixScore pen thr (a.get x y) (t.get x y)

/-- Full whole-grid fitness score: y running from 0 to `mh - 1`
(src/genetic_algorithm.rs lines 366-393, src/brute_force.rs lines 228-245). -/
def rectScore (pen : Rat) (thr : Nat) (a t : Img) (mw : Nat) : Nat → Rat
  | 0 => 0
  | y + 1 => rectScore pen thr a t mw y + rowScore pen thr a t y mw

/-- Embedding of `GeneticAlgorithm::calculate_fitness_for_chars_static`
(src/genetic_algorithm.rs lines 338-398): compose the grid, return 0 when the
precomputed non-background count is zero, otherwise score over the overlap of
the two images, divide by the count and clamp at 0 from below via `max`. -/
def calculate_fitness_for_chars_static (g : AsciiGen) (target : Img)
    (chars : List Nat) (w h : Nat) (total : Rat) (thr : Nat) : Rat :=
  let ascii := generate_ascii_image g chars w h
  if total = 0 then 0
  else
    max 0 (rectScore (1/100) thr ascii target
      (min ascii.width target.width) (min ascii.height target.height) / total)

/-- Embedding of `BruteForceGenerator::calculate_fitness`
(src/brute_force.rs lines 216-249): same loop with false-positive penalty
0.005, final clamp written as `if fitness < 0.0 { 0.0 } else { fitness }`. -/
def brute_calculate_fitness (g : AsciiGen) (target : Img)
    (chars : List Nat) (w h : Nat) (total : Rat) (thr : Nat) : Rat :=
  let ascii := generate_ascii_image g chars w h
  if total = 0 then 0
  else
    let fitness := rectScore (1/200) thr ascii target
      (min ascii.width target.width) (min ascii.height target.height) / total
    if fitness < 0 then 0 else fitness

/-- Accumulator update for one pixel of
`BruteForceGenerator::calculate_fitness_for_position` (src/brute_force.rs
lines 176-203): the pair is (score, total_relevant_pixels).  The character
image is addressed at `(x - start_x, y - start_y)` and consulted only when
those offsets are inside its bounds, exactly as in the source. -/
def cellStep (thr : Nat) (sci t : Img) (sx sy x y : Nat) (acc : Rat × Rat) : Rat × Rat :=
  let tp := t.get x y
  let cx := x - sx
  let cy := y - sy
  if cx < sci.width ∧ cy < sci.height then
    let ap := sci.get cx cy
    if evalIsLit thr tp then
      (acc.1 + (if ((ap : Int) - (tp : Int)).natAbs < 30 then 1 else 0), acc.2 + 1)
    else if evalIsLit thr ap then (acc.1 - 1/200, acc.2) else acc
  else acc

/-- Row of the per-cell loop: x running from `sx` to `sx + xc - 1`. -/
def cellRow (thr : Nat) (sci t : Img) (sx sy y : Nat) : Nat → Rat × Rat
  | 0 => (0, 0)
  | x + 1 => cellStep thr sci t sx sy (sx + x) y (cellRow thr sci t sx sy y x)

/-- Full per-cell accumulation: y running from `sy` to `sy + yc - 1`.  The
two accumulators only ever add, so summing per-row pairs is exact. -/
def cellRect (thr : Nat) (sci t : Img) (sx sy xc : Nat) : Nat → Rat × Rat
  | 0 => (0, 0)
  | y + 1 =>
    let p := cellRect thr sci t sx sy xc y
    let r := cellRow thr sci t sx sy (sy + y) xc
    (p.1 + r.1, p.2 + r.2)

/-- Embedding of `BruteForceGenerator::calculate_fitness_for_position`
(src/brute_force.rs lines 158-213): renders the single character as a 1x1
grid, scans the cell's clipped pixel region of the target, and resolves the
zero-relevant-pixels case by preferring the space character (code 32). -/
def calculate_fitness_for_position (g : AsciiGen) (t : Img) (thr : Nat)
    (row col : Nat) (test_char : Nat) : Rat :=
  let sci := generate_ascii_image g [test_char] 1 1
  let sx := col * g.char_width
  let sy := row * g.char_height
  let ex := min (sx + g.char_width) t.width
  let ey := min (sy + g.char_height) t.height
  let p := cellRect thr sci t sx sy (ex - sx) (ey - sy)
  if 0 < p.2 then
    let fitness := p.1 / p.2
    if fitness < 0 then 0 else fitness
  else if test_char = 32 then 1 else 0

/-- Embedding of `BruteForceGenerator::find_best_char_for_position`
(src/brute_force.rs lines 136-155): fold over `ALLOWED_CHARS` starting from
(space, 0.0), keeping a strictly better-scoring character.  The source also
builds a `test_chars` copy of the current grid with the candidate written at
`position`, but never reads it, so the embedding drops that dead store.
`bestStep` is the loop body: keep a strictly better-scoring character. -/
def bestStep (g : AsciiGen) (t : Img) (thr row col : Nat)
    (best : Nat × Rat) (c : Nat) : Nat × Rat :=
  let fitness := calculate_fitness_for_position g t thr row col c
  if best.2 < fitness then (c, fitness) else best

/-- Fold of `bestStep` over the whole alphabet from the initial state
(space, 0.0), as in the source loop. -/
def find_best_char_for_position (g : AsciiGen) (t : Img) (thr : Nat)
    (row col : Nat) : Nat :=
  (ALLOWED_CHARS.foldl (bestStep g t thr row col) ((32 : Nat), (0 : Rat))).1

/-- Position loop of `BruteForceGenerator::generate` (src/brute_force.rs lines
80-119): processes positions in row-major order (`row = position / width`,
`col = position % width`), writes the winning character into the grid
(initialized to all spaces), then, when a progress callback is supplied,
invokes it with the 1-based position count and stops as soon as it returns
false.  The fuel argument counts the remaining positions. -/
def bruteGo (g : AsciiGen) (t : Img) (thr w : Nat) (cb : Option (Nat → Bool)) :
    Nat → Nat → List Nat → List Nat
  | 0, _, best => best
  | fuel + 1, pos, best =>
    let bc := find_best_char_for_position g t thr (pos / w) (pos % w)
    let best1 := best.set pos bc
    match cb with
    | some f => if f (pos + 1) then bruteGo g t thr w cb fuel (pos + 1) best1 else best1
    | none => bruteGo g t thr w cb fuel (pos + 1) best1

/-- Character grid produced by `BruteForceGenerator::generate`
(src/brute_force.rs lines 67-133).  The returned elapsed time is wall clock
and is not modelled; the final whole-grid fitness the source attaches to the
result is `brute_calculate_fitness` of this grid. -/
def brute_generate_chars (g : AsciiGen) (t : Img) (thr w h : Nat)
    (cb : Option (Nat → Bool)) : List Nat :=
  bruteGo g t thr w cb (w * h) 0 (List.replicate (w * h) 32)

/-- Random oracle: `fs` is the stream of `rng.gen::<f64>()` draws (each in
[0,1)), `ns` the stream of `rng.gen_range(0..n)` draws (modelled modulo `n`),
`fi`/`ni` the positions reached in each stream. -/
structure Rng where
  fs : Nat → Rat
  ns : Nat → Nat
  fi : Nat
  ni : Nat

/-- Draw of `rng.gen::<f64>()`. -/
def Rng.genFloat (r : Rng) : Rat × Rng :=
  (r.fs r.fi, { r with fi := r.fi + 1 })

/-- Draw of `rng.gen_range(0..n)` (the source only calls it with `n > 0`). -/
def Rng.genRange (r : Rng) (n : Nat) : Nat × Rng :=
  (r.ns r.ni % n, { r with ni := r.ni + 1 })

/-- Embedding of `Individual` (src/genetic_algorithm.rs lines 12-16). -/
structure Individual where
  chars : List Nat
  fitness : Rat
deriving DecidableEq, Repr

/-- Embedding of `Individual::new` (src/genetic_algorithm.rs lines 78-83). -/
def Individual.new (chars : List Nat) : Individual :=
  { chars := chars, fitness := 0 }

/-- Position loop of `Individual::crossover` (src/genetic_algorithm.rs lines
91-96): for each index `i` below the shorter length, draw a float and, when
it is below the crossover rate, put the other parent's character into child 1
and this parent's into child 2.  Children start as clones of the parents. -/
def crossoverGo (a b : List Nat) (rate : Rat) :
    Nat → Nat → List Nat → List Nat → Rng → List Nat × List Nat × Rng
  | 0, _, c1, c2, r => (c1, c2, r)
  | fuel + 1, i, c1, c2, r =>
    let d := r.genFloat
    if d.1 < rate then
      crossoverGo a b rate fuel (i + 1)
        (c1.set i (b.getD i 0)) (c2.set i (a.getD i 0)) d.2
    else
      crossoverGo a b rate fuel (i + 1) c1 c2 d.2

/-- Embedding of `Individual::crossover` (src/genetic_algorithm.rs lines
86-99), also returning the advanced random oracle. -/
def Individual.crossover (a b : Individual) (rate : Rat) (r : Rng) :
    Individual × Individual × Rng :=
  let res := crossoverGo a.chars b.chars rate
    (min a.chars.length b.chars.length) 0 a.chars b.chars r
  (Individual.new res.1, Individual.new res.2.1, res.2.2)

/-- Non-space members of `ALLOWED_CHARS`, as built inside mutation and random
initialization (src/genetic_algorithm.rs lines 116-119). -/
def nonSpaceChars : List Nat := ALLOWED_CHARS.filter (fun c => c ≠ 32)

/-- Per-character loop of `Individual::mutate_with_background_prob`
(src/genetic_algorithm.rs lines 110-123): each position draws a float; below
the mutation rate it draws again, giving the space character below the
background probability and otherwise a uniformly drawn non-space character. -/
def mutateGo (mrate bgprob : Rat) : List Nat → Rng → List Nat × Rng
  | [], r => ([], r)
  | c :: rest, r =>
    let d1 := r.genFloat
    if d1.1 < mrate then
      let d2 := d1.2.genFloat
      if d2.1 < bgprob then
        let res := mutateGo mrate bgprob rest d2.2
        (32 :: res.1, res.2)
      else
        let d3 := d2.2.genRange nonSpaceChars.length
        let res := mutateGo mrate bgprob rest d3.2
        (nonSpaceChars.getD d3.1 0 :: res.1, res.2)
    else
      let res := mutateGo mrate bgprob rest d1.2
      (c :: res.1, res.2)

/-- Embedding of `Individual::mutate_with_background_prob`
(src/genetic_algorithm.rs lines 107-124). -/
def Individual.mutate_with_background_prob (ind : Individual)
    (mrate bgprob : Rat) (r : Rng) : Individual × Rng :=
  let res := mutateGo mrate bgprob ind.chars r
  ({ ind with chars := res.1 }, res.2)

/-- Candidate-comparison loop of `GeneticAlgorithm::tournament_selection`
(src/genetic_algorithm.rs lines 435-440): a fixed number of further uniform
draws, keeping the strictly fitter candidate. -/
def tourGo (pop : List Individual) : Nat → Individual → Rng → Individual × Rng
  | 0, best, r => (best, r)
  | k + 1, best, r =>
    let d := r.genRange pop.length
    let cand := pop.getD d.1 (Individual.new [])
    tourGo pop k (if best.fitness < cand.fitness then cand else best) d.2

/-- Embedding of `GeneticAlgorithm::tournament_selection`
(src/genetic_algorithm.rs lines 429-443): tournament size 3, one initial
uniform pick then two comparison rounds. -/
def tournament_selection (pop : List Individual) (r : Rng) : Individual × Rng :=
  let d := r.genRange pop.length
  tourGo pop 2 (pop.getD d.1 (Individual.new [])) d.2

/-- Elite count chosen by `GeneticAlgorithm::new` (src/genetic_algorithm.rs
line 204): the top 10 percent, by integer division. -/
def elite_size (population_size : Nat) : Nat := population_size / 10

/-- Offspring loop of `GeneticAlgorithm::create_new_generation`
(src/genetic_algorithm.rs lines 410-423): while the new population is short
of `popsize`, select two parents by tournament, cross them over, mutate both
children, push the first and, if there is still room, the second.  Each pass
grows the population, so `popsize` iterations of fuel always suffice. -/
def cngGo (pop : List Individual) (popsize : Nat) (rate mrate bgprob : Rat) :
    Nat → List Individual → Rng → List Individual
  | 0, acc, _ => acc
  | fuel + 1, acc, r =>
    if popsize ≤ acc.length then acc
    else
      let s1 := tournament_selection pop r
      let s2 := tournament_selection pop s1.2
      let cr := Individual.crossover s1.1 s2.1 rate s2.2
      let m1 := cr.1.mutate_with_background_prob mrate bgprob cr.2.2
      let m2 := cr.2.1.mutate_with_background_prob mrate bgprob m1.2
      let acc1 := acc ++ [m1.1]
      let acc2 := if acc1.length < popsize then acc1 ++ [m2.1] else acc1
      cngGo pop popsize rate mrate bgprob fuel acc2 m2.2

/-- Embedding of `GeneticAlgorithm::create_new_generation`
(src/genetic_algorithm.rs lines 401-426): the elite prefix of the sorted
population is cloned unchanged, then offspring fill the remainder. -/
def create_new_generation (pop : List Individual) (popsize elite : Nat)
    (rate mrate bgprob : Rat) (r : Rng) : List Individual :=
  cngGo pop popsize rate mrate bgprob popsize (pop.take elite) r

/-- Modelled from the spec: the generation loop of the four-argument
`GeneticAlgorithm::evolve` that src/main.rs lines 186-223 invokes (with a
progress callback and a `(best, elapsed)` result).  That function is absent
from src/ — the three-argument `evolve` in src/genetic_algorithm.rs lines
238-274 neither matches the call site's arity nor its tuple return type, so
it is a stale revision.  Spec sections 4.3 and 5: the loop is "terminal when
the requested generation count is reached (or, in a 'continuous' mode
signaled by a generation count of zero, run indefinitely until cancelled)",
and the callback is checked once per generation boundary, a false return
terminating the loop.  `evolveReaches generations cb n = true` states that
the loop, given total `generations` and callback decisions `cb`, is still
running and executes generation index `n`. -/
def evolveReaches (generations : Nat) (cb : Nat → Bool) : Nat → Bool
  | 0 => true
  | n + 1 =>
    evolveReaches generations cb n && cb n &&
      (generations == 0 || decide (n + 1 < generations))

/-! Concrete instances used by counterexamples and witnesses. -/

/-- Generator whose every cached cell bitmap is a single full-intensity pixel
(cell size 1x1).  The cache contents come from the external font rasterizer,
so any bitmap values are admissible. -/
def gAll255 : AsciiGen :=
  { char_width := 1, char_height := 1, cache := fun _ => some ⟨1, 1, [255]⟩ }

/-- All-black 1x1 target image. -/
def tZero : Img := ⟨1, 1, [0]⟩

/-- Clamping by an `if` against zero is the `max` with zero. -/
theorem if_neg_clamp_eq_max (x : Rat) : (if x < 0 then 0 else x) = max 0 x := by
  rcases lt_or_le x 0 with h | h
  · simp [h, max_eq_left h.le]
  · simp [not_lt.mpr h, max_eq_right h]

/-- C2 counterexample: in light-background mode (threshold 200) the fitness
evaluators classify the pixel intensity 255 as foreground (lit), while the
claim's mode-dependent rule classifies it as background; concretely, the
single-cell evaluator awards a full foreground match on a pure-white target
pixel for a non-space character. -/
theorem c2_light_mode_classification_fails :
    evalIsLit 200 255 = true ∧ specIsLit true 200 255 = false ∧
    calculate_fitness_for_position gAll255 ⟨1, 1, [255]⟩ 200 0 0 42 = 1 := by
  refine ⟨rfl, rfl, ?_⟩
  norm_num [calculate_fitness_for_position, cellRect, cellRow, cellStep,
    generate_ascii_image, generate_ascii_image_with_background, placeChars,
    copy_char_to_image, copyGo, copyRowGo, Img.put, Img.get, evalIsLit, gAll255]

/-- C2 amended: during fitness evaluation the target pixel is classified as
foreground exactly when its intensity is strictly above the threshold, in
both background modes (the dark-background rule of the spec); the
below-threshold rule of light-background mode is applied only by
`count_non_background_pixels`. -/
theorem c2_eval_classification_is_dark_rule (white : Bool) (thr p : Nat) :
    evalIsLit thr p = specIsLit false thr p ∧
    countIsLit white thr p = specIsLit white thr p := by
  cases white <;> simp [evalIsLit, countIsLit, specIsLit]

/-- C3: with a generation count of zero (continuous mode) the evolution loop
is never terminal — as long as the callback keeps returning true, every
generation index is reached, so the loop runs indefinitely until cancelled
rather than terminating immediately. -/
theorem c3_continuous_mode_runs_until_cancelled (cb : Nat → Bool) (n : Nat)
    (hcb : ∀ j, cb j = true) : evolveReaches 0 cb n = true := by
  induction n with
  | zero => rfl
  | succ n ih => simp [evolveReaches, ih, hcb]

/-- Witness for C3 at a concrete input: the continuous-mode loop with a
never-cancelling callback is still running at generation 4. -/
theorem c3_witness : evolveReaches 0 (fun _ => true) 4 = true :=
  c3_continuous_mode_runs_until_cancelled (fun _ => true) 4 (fun _ => rfl)

/-- C4: whole-grid fitness is `max(0, score / foreground_pixel_count)` for a
nonzero count (the genetic evaluator writes the clamp as `.max(0.0)`, the
brute-force one as an `if`, which coincide); a zero foreground count yields
whole-grid fitness 0 in both evaluators; and the single-cell evaluator with
zero relevant pixels in its cell region yields 1 for the space character and
0 for every other character. -/
theorem c4_fitness_normalization_and_degenerate_cases (g : AsciiGen)
    (target : Img) (chars : List Nat) (w h : Nat) (total : Rat)
    (thr row col c : Nat) :
    (total ≠ 0 →
      calculate_fitness_for_chars_static g target chars w h total thr =
        max 0 (rectScore (1/100) thr (generate_ascii_image g chars w h) target
          (min (generate_ascii_image g chars w h).width target.width)
          (min (generate_ascii_image g chars w h).height target.height) / total) ∧
      brute_calculate_fitness g target chars w h total thr =
        max 0 (rectScore (1/200) thr (generate_ascii_image g chars w h) target
          (min (generate_ascii_image g chars w h).width target.width)
          (min (generate_ascii_image g chars w h).height target.height) / total)) ∧
    (calculate_fitness_for_chars_static g target chars w h 0 thr = 0 ∧
     brute_calculate_fitness g target chars w h 0 thr = 0) ∧
    ((cellRect thr (generate_ascii_image g [c] 1 1) target
        (col * g.char_width) (row * g.char_height)
        (min (col * g.char_width + g.char_width) target.width - col * g.char_width)
        (min (row * g.char_height + g.char_height) target.height - row * g.char_height)).2 = 0 →
      calculate_fitness_for_position g target thr row col c =
        (if c = 32 then 1 else 0)) := by
  refine ⟨fun htot => ⟨?_, ?_⟩, ⟨?_, ?_⟩, fun hrel => ?_⟩
  · simp [calculate_fitness_for_chars_static, htot]
  · rw [brute_calculate_fitness]
    simp only [htot, if_false, if_neg_clamp_eq_max]
  · simp [calculate_fitness_for_chars_static]
  · simp [brute_calculate_fitness]
  · rw [calculate_fitness_for_position]
    simp only [hrel, lt_irrefl, if_false]

/-- Witness for C4 at concrete inputs: a zero count gives whole-grid fitness
0, a cell with no relevant pixels gives 0 for a non-space character, and the
brute-force clamp agrees with the `max` form at count 1. -/
theorem c4_witness :
    calculate_fitness_for_chars_static gAll255 tZero [32] 1 1 0 50 = 0 ∧
    calculate_fitness_for_position gAll255 tZero 50 0 0 33 = 0 ∧
    brute_calculate_fitness gAll255 tZero [33] 1 1 1 50 =
      max 0 (rectScore (1/200) 50 (generate_ascii_image gAll255 [33] 1 1) tZero
        (min (generate_ascii_image gAll255 [33] 1 1).width tZero.width)
        (min (generate_ascii_image gAll255 [33] 1 1).height tZero.height) / 1) := by
  have h := c4_fitness_normalization_and_degenerate_cases gAll255 tZero [33] 1 1 1 50 0 0 33
  refine ⟨?_, ?_, (h.1 (by norm_num)).2⟩
  · exact (c4_fitness_normalization_and_degenerate_cases gAll255 tZero [32] 1 1 1 50 0 0 32).2.1.1
  · have h2 := h.2.2 (by
      norm_num [cellRect, cellRow, cellStep, generate_ascii_image,
        generate_ascii_image_with_background, placeChars, copy_char_to_image,
        copyGo, copyRowGo, Img.put, Img.get, evalIsLit, gAll255, tZero])
    simpa using h2

/-! Helper lemmas on lists, shared by several claims. -/

/-- Reading beside a write leaves the value unchanged. -/
theorem getD_set_ne {l : List Nat} {i j v : Nat} (h : i ≠ j) :
    (l.set i v).getD j 0 = l.getD j 0 := by
  simp [List.getD, List.getElem?_set_ne h]

/-- Reading an in-bounds write gives the written value. -/
theorem getD_set_self {l : List Nat} {i v : Nat} (h : i < l.length) :
    (l.set i v).getD i 0 = v := by
  simp [List.getD, List.getElem?_set_self, h]

/-- Two lists of equal length agreeing at every in-range default read are
equal. -/
theorem ext_of_getD {l1 l2 : List Nat} (h1 : l1.length = l2.length)
    (h2 : ∀ j, j < l1.length → l1.getD j 0 = l2.getD j 0) : l1 = l2 := by
  apply List.ext_getElem h1
  intro i hi1 hi2
  have := h2 i hi1
  rwa [List.getD_eq_getElem _ _ hi1, List.getD_eq_getElem _ _ hi2] at this

/-- Crossover loop at rate 1: every draw is below 1, so every position up to
the shared length is swapped; if the children so far agree with the opposite
parents below `i`, the final children are the opposite parents. -/
theorem crossoverGo_rate_one (a b : List Nat) (h : a.length = b.length) :
    ∀ fuel i c1 c2 r, (∀ j, r.fs j < 1) →
    c1.length = b.length → c2.length = a.length → i + fuel = b.length →
    (∀ j, j < i → c1.getD j 0 = b.getD j 0) →
    (∀ j, j < i → c2.getD j 0 = a.getD j 0) →
    (crossoverGo a b 1 fuel i c1 c2 r).1 = b ∧
      (crossoverGo a b 1 fuel i c1 c2 r).2.1 = a := by
  intro fuel
  induction fuel with
  | zero =>
    intro i c1 c2 r _ hl1 hl2 hi hc1 hc2
    simp only [crossoverGo]
    refine ⟨ext_of_getD hl1 ?_, ext_of_getD hl2 ?_⟩
    · intro j hj; exact hc1 j (by omega)
    · intro j hj; exact hc2 j (by omega)
  | succ fuel ih =>
    intro i c1 c2 r hr hl1 hl2 hi hc1 hc2
    rw [crossoverGo]
    simp only [Rng.genFloat, hr r.fi, if_pos]
    apply ih
    · exact hr
    · simpa using hl1
    · simpa using hl2
    · omega
    · intro j hj
      rcases Nat.lt_or_ge j i with hji | hji
      · rw [getD_set_ne (by omega), hc1 j hji]
      · have : j = i := by omega
        subst this
        exact getD_set_self (by omega)
    · intro j hj
      rcases Nat.lt_or_ge j i with hji | hji
      · rw [getD_set_ne (by omega), hc2 j hji]
      · have : j = i := by omega
        subst this
        exact getD_set_self (by omega)

/-- Crossover loop at rate 0: no draw is below 0, so the children are
returned unchanged. -/
theorem crossoverGo_rate_zero (a b : List Nat) :
    ∀ fuel i c1 c2 r, (∀ j, 0 ≤ r.fs j) →
    (crossoverGo a b 0 fuel i c1 c2 r).1 = c1 ∧
      (crossoverGo a b 0 fuel i c1 c2 r).2.1 = c2 := by
  intro fuel
  induction fuel with
  | zero => intro i c1 c2 r _; exact ⟨rfl, rfl⟩
  | succ fuel ih =>
    intro i c1 c2 r hr
    rw [crossoverGo]
    simp only [Rng.genFloat, not_lt.mpr (hr r.fi), if_neg (not_lt.mpr (hr r.fi))]
    exact ih (i + 1) c1 c2 _ hr

/-- C7: for two parents of a common grid size and a float stream drawing in
[0,1) (as rand's gen does), crossover at rate 1.0 fully swaps the parents'
character sequences, and crossover at rate 0.0 yields children identical to
the respective parents. -/
theorem c7_crossover_rate_extremes (a b : Individual) (r : Rng)
    (hlen : a.chars.length = b.chars.length)
    (h0 : ∀ j, 0 ≤ r.fs j) (h1 : ∀ j, r.fs j < 1) :
    ((a.crossover b 1 r).1.chars = b.chars ∧
     (a.crossover b 1 r).2.1.chars = a.chars) ∧
    ((a.crossover b 0 r).1.chars = a.chars ∧
     (a.crossover b 0 r).2.1.chars = b.chars) := by
  constructor
  · have := crossoverGo_rate_one a.chars b.chars hlen
      (min a.chars.length b.chars.length) 0 a.chars b.chars r h1
      hlen hlen.symm (by omega) (by simp) (by simp)
    simpa [Individual.crossover, Individual.new] using this
  · have := crossoverGo_rate_zero a.chars b.chars
      (min a.chars.length b.chars.length) 0 a.chars b.chars r h0
    simpa [Individual.crossover, Individual.new] using this

/-- Witness for C7 at concrete parents of length 2 and the constant draw
stream 1/2. -/
theorem c7_witness :
    ((Individual.crossover ⟨[1, 2], 0⟩ ⟨[3, 4], 0⟩ 1 ⟨fun _ => 1/2, fun _ => 0, 0, 0⟩).1.chars
        = [3, 4] ∧
     (Individual.crossover ⟨[1, 2], 0⟩ ⟨[3, 4], 0⟩ 0 ⟨fun _ => 1/2, fun _ => 0, 0, 0⟩).1.chars
        = [1, 2]) := by
  have h := c7_crossover_rate_extremes ⟨[1, 2], 0⟩ ⟨[3, 4], 0⟩
    ⟨fun _ => 1/2, fun _ => 0, 0, 0⟩ rfl (fun _ => by norm_num) (fun _ => by norm_num)
  exact ⟨h.1.1, h.2.1⟩

/-- Offspring loop length: starting at or below the population size with
enough fuel (each pass adds at least one individual), the loop fills the new
population to exactly the population size. -/
theorem cngGo_length (pop : List Individual) (popsize : Nat)
    (rate mrate bgprob : Rat) :
    ∀ fuel acc r, acc.length ≤ popsize → popsize ≤ acc.length + fuel →
    (cngGo pop popsize rate mrate bgprob fuel acc r).length = popsize := by
  intro fuel
  induction fuel with
  | zero =>
    intro acc r hle hge
    simp only [cngGo]
    omega
  | succ fuel ih =>
    intro acc r hle hge
    rw [cngGo]
    split
    · omega
    · dsimp only
      split
      · rename_i hin
        apply ih
        · simp only [List.length_append, List.length_singleton] at hin ⊢
          omega
        · simp only [List.length_append, List.length_singleton] at hin ⊢
          omega
      · rename_i hin
        apply ih
        · simp only [List.length_append, List.length_singleton] at hin ⊢
          omega
        · simp only [List.length_append, List.length_singleton] at hin ⊢
          omega

/-- Offspring loop only appends: the accumulated new population is always a
prefix of the result. -/
theorem cngGo_prefix (pop : List Individual) (popsize : Nat)
    (rate mrate bgprob : Rat) :
    ∀ fuel acc r, ∃ rest,
      cngGo pop popsize rate mrate bgprob fuel acc r = acc ++ rest := by
  intro fuel
  induction fuel with
  | zero =>
    intro acc r
    exact ⟨[], by simp [cngGo]⟩
  | succ fuel ih =>
    intro acc r
    rw [cngGo]
    split
    · exact ⟨[], by simp⟩
    · dsimp only
      split
      · obtain ⟨rest, hrest⟩ := ih _ _
        exact ⟨_, by rw [hrest, List.append_assoc, List.append_assoc]⟩
      · obtain ⟨rest, hrest⟩ := ih _ _
        exact ⟨_, by rw [hrest, List.append_assoc]⟩

/-- C5: with the source's elite count `population_size / 10`, a generation
step keeps the population size constant, the elite count is strictly below
the population size, and each of the top `elite_size` individuals is carried
into the next generation unchanged (character sequence and fitness). -/
theorem c5_generation_invariants (pop : List Individual) (popsize : Nat)
    (rate mrate bgprob : Rat) (r : Rng)
    (hlen : pop.length = popsize) (hpos : 0 < popsize) :
    elite_size popsize < popsize ∧
    (create_new_generation pop popsize (elite_size popsize) rate mrate bgprob r).length
      = popsize ∧
    ∀ i, i < elite_size popsize →
      (create_new_generation pop popsize (elite_size popsize) rate mrate bgprob r).getD
          i (Individual.new [])
        = pop.getD i (Individual.new []) := by
  have helite : elite_size popsize ≤ popsize := Nat.div_le_self _ _
  have htake : (pop.take (elite_size popsize)).length = elite_size popsize := by
    simp [hlen, helite]
  refine ⟨Nat.div_lt_self hpos (by norm_num), ?_, ?_⟩
  · apply cngGo_length
    · omega
    · omega
  · intro i hi
    obtain ⟨rest, hrest⟩ :=
      cngGo_prefix pop popsize rate mrate bgprob popsize (pop.take (elite_size popsize)) r
    rw [create_new_generation, hrest,
      List.getD_append _ _ _ _ (by omega)]
    simp [List.getD, List.getElem?_take, hi]

/-- Witness for C5: a concrete population of 20 space-individuals with the
constant random oracle keeps size 20 and elite count 2 below 20. -/
theorem c5_witness :
    elite_size 20 < 20 ∧
    (create_new_generation (List.replicate 20 (Individual.new [32])) 20
        (elite_size 20) (8/10) (1/100) 0 ⟨fun _ => 0, fun _ => 0, 0, 0⟩).length = 20 := by
  have h := c5_generation_invariants (List.replicate 20 (Individual.new [32])) 20
    (8/10) (1/100) 0 ⟨fun _ => 0, fun _ => 0, 0, 0⟩ (by simp) (by norm_num)
  exact ⟨h.1, h.2.1⟩

/-- Brute-force loop after a cancelling callback: once the callback is false
at step `k + 1`, grid positions beyond `k` keep their incoming value. -/
theorem bruteGo_stop (g : AsciiGen) (t : Img) (thr w : Nat) (f : Nat → Bool)
    (k : Nat) (hk : f (k + 1) = false) :
    ∀ fuel pos best, pos ≤ k → ∀ j, k < j →
      (bruteGo g t thr w (some f) fuel pos best).getD j 0 = best.getD j 0 := by
  intro fuel
  induction fuel with
  | zero => intro pos best _ j _; rfl
  | succ fuel ih =>
    intro pos best hpos j hj
    rw [bruteGo]
    rcases Nat.lt_or_ge pos k with hpk | hpk
    · by_cases hf : f (pos + 1) = true
      · simp only [hf, if_pos]
        rw [ih (pos + 1) _ (by omega) j hj, getD_set_ne (by omega)]
      · simp only [Bool.not_eq_true] at hf
        simp only [hf, Bool.false_eq_true, if_false]
        rw [getD_set_ne (by omega)]
    · have : pos = k := by omega
      subst this
      simp only [hk, Bool.false_eq_true, if_false]
      rw [getD_set_ne (by omega)]

/-- Brute-force loop and callbacks that agree up to the cancellation point:
the produced grids are identical — steps after the stop have no effect. -/
theorem bruteGo_cb_agree (g : AsciiGen) (t : Img) (thr w : Nat)
    (f f2 : Nat → Bool) (k : Nat) (hk : f (k + 1) = false)
    (hagree : ∀ j, j ≤ k + 1 → f2 j = f j) :
    ∀ fuel pos best, pos ≤ k →
      bruteGo g t thr w (some f2) fuel pos best =
        bruteGo g t thr w (some f) fuel pos best := by
  intro fuel
  induction fuel with
  | zero => intro pos best _; rfl
  | succ fuel ih =>
    intro pos best hpos
    rw [bruteGo, bruteGo]
    rw [hagree (pos + 1) (by omega)]
    rcases Nat.lt_or_ge pos k with hpk | hpk
    · by_cases hf : f (pos + 1) = true
      · simp only [hf, if_pos]
        exact ih (pos + 1) _ (by omega)
      · simp only [Bool.not_eq_true] at hf
        simp only [hf, Bool.false_eq_true, if_false]
    · have : pos = k := by omega
      subst this
      simp only [hk, Bool.false_eq_true, if_false]

/-- Loop state of the modelled genetic generation loop after a cancelling
callback: no later generation is reached. -/
theorem evolveReaches_stop (generations : Nat) (cb : Nat → Bool) (gg : Nat)
    (hcb : cb gg = false) : ∀ m, gg < m → evolveReaches generations cb m = false := by
  intro m
  induction m with
  | zero => omega
  | succ m ih =>
    intro hm
    rcases Nat.lt_or_ge gg m with hgm | hgm
    · rw [evolveReaches, ih hgm]
      rfl
    · have : gg = m := by omega
      subst this
      rw [evolveReaches, hcb]
      simp

/-- C8: when the progress callback returns false at an iteration boundary,
the search loops terminate early.  For brute force (from the source): all
positions after the cancellation keep the initial background glyph, and the
run is insensitive to the callback's values beyond the stop.  For the
genetic engine (modelled from the spec, like `evolveReaches` itself): after a
false callback at a generation boundary no later generation is reached. -/
theorem c8_callback_false_terminates_early (g : AsciiGen) (t : Img)
    (thr w h : Nat) (f : Nat → Bool) (k : Nat) (hk : f (k + 1) = false) :
    (∀ j, k < j → j < w * h →
        (brute_generate_chars g t thr w h (some f)).getD j 0 = 32) ∧
    (∀ f2 : Nat → Bool, (∀ j, j ≤ k + 1 → f2 j = f j) →
        brute_generate_chars g t thr w h (some f2) =
          brute_generate_chars g t thr w h (some f)) ∧
    (∀ generations cb gg m, cb gg = false → gg < m →
        evolveReaches generations cb m = false) := by
  refine ⟨?_, ?_, ?_⟩
  · intro j hj hjwh
    rw [brute_generate_chars, bruteGo_stop g t thr w f k hk _ 0 _ (by omega) j hj]
    simp [List.getD, List.getElem?_replicate, hjwh]
  · intro f2 hagree
    rw [brute_generate_chars, brute_generate_chars]
    exact bruteGo_cb_agree g t thr w f f2 k hk hagree _ 0 _ (by omega)
  · intro generations cb gg m hcb hm
    exact evolveReaches_stop generations cb gg hcb m hm

/-- Witness for C8: a callback that immediately cancels leaves position 1 of
a 1x2 brute-force grid at the background glyph, and a false callback at
generation 0 stops the modelled genetic loop before generation 3. -/
theorem c8_witness :
    (brute_generate_chars gAll255 tZero 50 1 2 (some (fun _ => false))).getD 1 0 = 32 ∧
    evolveReaches 7 (fun _ => false) 3 = false := by
  have h := c8_callback_false_terminates_early gAll255 tZero 50 1 2 (fun _ => false) 0 rfl
  exact ⟨h.1 1 (by norm_num) (by norm_num),
    h.2.2 7 (fun _ => false) 0 3 rfl (by norm_num)⟩

/-- Row decomposition of a flat grid: `hh` consecutive rows of `w` characters
(the shape `individual_to_string` is claimed to emit). -/
def rowsOf (w : Nat) : Nat → List Nat → List (List Nat)
  | 0, _ => []
  | hh + 1, l => l.take w :: rowsOf w hh (l.drop w)

/-- Newline-delimited join of rows. -/
def newlineJoin : List (List Char) → List Char
  | [] => []
  | [r] => r
  | r :: r2 :: rs => r ++ Char.ofNat 10 :: newlineJoin (r2 :: rs)

/-- Row-major join with a newline before every row except a leading row at
row index 0: the exact emission order of `individual_to_string`. -/
def rowsJoinTail (w : Nat) : Nat → Nat → List Nat → List Char
  | _, 0, _ => []
  | k, hh + 1, l =>
    (if k = 0 then [] else [Char.ofNat 10]) ++ (l.take w).map Char.ofNat ++
      rowsJoinTail w (k + 1) hh (l.drop w)

/-- Serialization loop over a stretch of indices none of which is a positive
multiple of the width: no newline is emitted. -/
theorem itsGo_no_newline (w : Nat) :
    ∀ (l rest : List Nat) (i : Nat),
      (∀ m, m < l.length → ¬(0 < i + m ∧ (i + m) % w = 0)) →
      itsGo w (l ++ rest) i = l.map Char.ofNat ++ itsGo w rest (i + l.length) := by
  intro l
  induction l with
  | nil => intro rest i _; simp
  | cons c l ih =>
    intro rest i hm
    rw [List.cons_append, itsGo]
    have h0 := hm 0 (by simp)
    simp only [Nat.add_zero] at h0
    rw [if_neg h0]
    have hstep := ih rest (i + 1) (fun m hmm => by
      have h1 := hm (m + 1) (by simpa using Nat.succ_lt_succ hmm)
      rwa [show i + (m + 1) = i + 1 + m from by omega] at h1)
    rw [hstep]
    simp only [List.map_cons, List.nil_append, List.cons_append, List.length_cons]
    have harith : i + 1 + l.length = i + (l.length + 1) := by omega
    rw [harith]

/-- Serialization loop over one full row starting at index `k * w`: a newline
is emitted first exactly when `k > 0`, then the row's characters, and the
loop continues at index `(k + 1) * w`. -/
theorem itsGo_row (w : Nat) (hw : 0 < w) (row rest : List Nat) (k : Nat)
    (hrow : row.length = w) :
    itsGo w (row ++ rest) (k * w) =
      (if k = 0 then [] else [Char.ofNat 10]) ++ row.map Char.ofNat ++
        itsGo w rest ((k + 1) * w) := by
  cases row with
  | nil => simp at hrow; omega
  | cons c row =>
    rw [List.cons_append, itsGo]
    have hcond : (0 < k * w ∧ k * w % w = 0) ↔ 0 < k := by
      constructor
      · rintro ⟨h1, _⟩
        rcases Nat.eq_zero_or_pos k with hk | hk
        · subst hk; simp at h1
        · exact hk
      · intro hk
        exact ⟨Nat.mul_pos hk hw, Nat.mul_mod_left k w⟩
    have hlen : row.length = w - 1 := by simp at hrow; omega
    have hnn := itsGo_no_newline w row rest (k * w + 1) (fun m hmm => by
      rintro ⟨_, hmod⟩
      have hmw : 1 + m < w := by omega
      have : (k * w + 1 + m) % w = (1 + m) % w := by
        rw [Nat.add_assoc, Nat.add_comm (k * w) (1 + m), Nat.add_mul_mod_self_right]
      rw [this, Nat.mod_eq_of_lt hmw] at hmod
      omega)
    rw [hnn]
    have harith : k * w + 1 + row.length = (k + 1) * w := by
      rw [hlen]
      have : 1 ≤ w := hw
      ring_nf
      omega
    rw [harith]
    rcases Nat.eq_zero_or_pos k with hk | hk
    · subst hk
      rw [if_neg (by simp [hcond]), if_pos rfl]
      simp
    · rw [if_pos (hcond.mpr hk), if_neg (by omega)]
      simp

/-- Serialization loop over a grid of `hh` full rows starting at row `k`:
it emits the row-major newline-delimited join. -/
theorem itsGo_rows (w : Nat) (hw : 0 < w) :
    ∀ hh k l, l.length = w * hh →
      itsGo w l (k * w) = rowsJoinTail w k hh l := by
  intro hh
  induction hh with
  | zero =>
    intro k l hlen
    have hl : l = [] := List.length_eq_zero.mp (by omega)
    subst hl
    rfl
  | succ hh ih =>
    intro k l hlen
    have hwle : w ≤ l.length := by
      rw [hlen, Nat.mul_succ]
      omega
    have htake : (l.take w).length = w := by simp [hwle]
    conv_lhs => rw [← List.take_append_drop w l]
    rw [itsGo_row w hw _ _ k htake, rowsJoinTail]
    congr 1
    apply ih
    simp [hlen, Nat.mul_succ]

/-- Row-join with positive starting row index: the index value is irrelevant
(only zero versus nonzero matters). -/
theorem rowsJoinTail_pos (w : Nat) :
    ∀ hh k1 k2 l, 0 < k1 → 0 < k2 →
      rowsJoinTail w k1 hh l = rowsJoinTail w k2 hh l := by
  intro hh
  induction hh with
  | zero => intro k1 k2 l _ _; rfl
  | succ hh ih =>
    intro k1 k2 l h1 h2
    rw [rowsJoinTail, rowsJoinTail, if_neg (by omega), if_neg (by omega),
      ih (k1 + 1) (k2 + 1) (l.drop w) (by omega) (by omega)]

/-- Row-join from a positive row index is the flattening of newline-prefixed
rows. -/
theorem rowsJoinTail_one_eq_flatten (w : Nat) :
    ∀ hh l, rowsJoinTail w 1 hh l =
      List.flatten ((rowsOf w hh l).map
        (fun r => Char.ofNat 10 :: r.map Char.ofNat)) := by
  intro hh
  induction hh with
  | zero => intro l; rfl
  | succ hh ih =>
    intro l
    rw [rowsJoinTail, if_neg (by omega), rowsJoinTail_pos w hh 2 1 _ (by omega) (by omega),
      ih, rowsOf]
    simp

/-- Newline join of a nonempty row list, flattened form. -/
theorem newlineJoin_cons_eq :
    ∀ (rs : List (List Char)) (r : List Char), newlineJoin (r :: rs) =
      r ++ List.flatten (rs.map (fun x => Char.ofNat 10 :: x)) := by
  intro rs
  induction rs with
  | nil => intro r; simp [newlineJoin]
  | cons r2 rs ih =>
    intro r
    rw [show newlineJoin (r :: r2 :: rs)
          = r ++ Char.ofNat 10 :: newlineJoin (r2 :: rs) from rfl, ih r2]
    simp

/-- Rows of a `w * hh` grid all have length `w`. -/
theorem rowsOf_length (w : Nat) (_hw : 0 < w) :
    ∀ hh l, l.length = w * hh → ∀ r ∈ rowsOf w hh l, r.length = w := by
  intro hh
  induction hh with
  | zero => intro l _ r hr; simp [rowsOf] at hr
  | succ hh ih =>
    intro l hlen r hr
    rw [rowsOf] at hr
    rcases List.mem_cons.mp hr with h | h
    · subst h
      have hwle : w ≤ l.length := by rw [hlen, Nat.mul_succ]; omega
      simp [hwle]
    · exact ih (l.drop w) (by simp [hlen, Nat.mul_succ]) r h

/-- C9: the text serialization of a flat `w * hh` character grid is the
newline-delimited join of its row-major rows, each row being exactly `w`
characters; in particular the concrete 2x2 instance of the claim holds (see
the witness). -/
theorem c9_individual_to_string_rows (w hh : Nat) (chars : List Nat)
    (hw : 0 < w) (hlen : chars.length = w * hh) :
    individual_to_string chars w =
      String.mk (newlineJoin ((rowsOf w hh chars).map
        (fun r => r.map Char.ofNat))) ∧
    ∀ r ∈ rowsOf w hh chars, r.length = w := by
  refine ⟨?_, rowsOf_length w hw hh chars hlen⟩
  rw [individual_to_string]
  have h0 : itsGo w chars 0 = itsGo w chars (0 * w) := by norm_num
  rw [h0, itsGo_rows w hw hh 0 chars hlen]
  congr 1
  cases hh with
  | zero =>
    have hl : chars = [] := List.length_eq_zero.mp (by omega)
    subst hl
    rfl
  | succ hh =>
    rw [rowsJoinTail, if_pos rfl, rowsJoinTail_one_eq_flatten, rowsOf]
    rw [List.map_cons, newlineJoin_cons_eq]
    simp [Function.comp_def]

/-- Witness for C9: the 2x2 grid H, i, bang, space with width 2 serializes
to the five-character string with a newline after the first row. -/
theorem c9_witness :
    0 < 2 ∧ ([72, 105, 33, 32] : List Nat).length = 2 * 2 ∧
    individual_to_string [72, 105, 33, 32] 2 = "Hi\n! " := by
  have h := c9_individual_to_string_rows 2 2 [72, 105, 33, 32] (by norm_num) (by norm_num)
  refine ⟨by norm_num, by norm_num, ?_⟩
  rw [h.1]
  rfl

/-- On a target whose every pixel is at most the threshold, every pixel read
is classified background by the evaluators. -/
theorem get_not_lit_of_blank (t : Img) (thr : Nat)
    (hblank : ∀ p ∈ t.data, p ≤ thr) (x y : Nat) :
    evalIsLit thr (t.get x y) = false := by
  rw [Img.get, evalIsLit]
  rcases Nat.lt_or_ge (y * t.width + x) t.data.length with hlt | hge
  · rw [List.getD_eq_getElem _ _ hlt]
    have := hblank _ (List.getElem_mem hlt)
    simpa using this
  · rw [List.getD_eq_default _ _ hge]
    simp

/-- Per-cell row accumulation on a blank target finds no relevant pixel. -/
theorem cellRow_blank_rel (t : Img) (thr : Nat)
    (hblank : ∀ p ∈ t.data, p ≤ thr) (sci : Img) (sx sy y : Nat) :
    ∀ xc, (cellRow thr sci t sx sy y xc).2 = 0 := by
  intro xc
  induction xc with
  | zero => rfl
  | succ xc ih =>
    rw [cellRow, cellStep]
    simp only [get_not_lit_of_blank t thr hblank, Bool.false_eq_true, if_false]
    split
    · split
      · exact ih
      · exact ih
    · exact ih

/-- Per-cell accumulation on a blank target finds no relevant pixel. -/
theorem cellRect_blank_rel (t : Img) (thr : Nat)
    (hblank : ∀ p ∈ t.data, p ≤ thr) (sci : Img) (sx sy xc : Nat) :
    ∀ yc, (cellRect thr sci t sx sy xc yc).2 = 0 := by
  intro yc
  induction yc with
  | zero => rfl
  | succ yc ih =>
    rw [cellRect]
    simp only [ih, cellRow_blank_rel t thr hblank]
    norm_num

/-- Single-cell fitness on a blank target: the space character scores 1,
every other character scores 0. -/
theorem cellFitness_blank (g : AsciiGen) (t : Img) (thr : Nat)
    (hblank : ∀ p ∈ t.data, p ≤ thr) (row col c : Nat) :
    calculate_fitness_for_position g t thr row col c =
      (if c = 32 then 1 else 0) := by
  rw [calculate_fitness_for_position]
  simp only [cellRect_blank_rel t thr hblank, lt_irrefl, if_false]

/-- Best-tracking fold on a blank cell: the state (space, 1.0) survives every
further candidate, since space scores 1 and any other character 0. -/
theorem foldl_bestStep_blank (g : AsciiGen) (t : Img) (thr : Nat)
    (hblank : ∀ p ∈ t.data, p ≤ thr) (row col : Nat) :
    ∀ l : List Nat,
      l.foldl (bestStep g t thr row col) ((32 : Nat), (1 : Rat)) = (32, 1) := by
  intro l
  induction l with
  | nil => rfl
  | cons c l ih =>
    rw [List.foldl_cons, bestStep, cellFitness_blank g t thr hblank row col c]
    by_cases hc : c = 32
    · rw [if_pos hc, if_neg (by norm_num)]
      exact ih
    · rw [if_neg hc, if_neg (by norm_num)]
      exact ih

/-- Character search at a blank cell: space wins with score 1 on the first
fold step and no other character (all scoring 0) displaces it. -/
theorem find_best_blank (g : AsciiGen) (t : Img) (thr : Nat)
    (hblank : ∀ p ∈ t.data, p ≤ thr) (row col : Nat) :
    find_best_char_for_position g t thr row col = 32 := by
  rw [find_best_char_for_position, ALLOWED_CHARS, List.foldl_cons]
  have hhead : bestStep g t thr row col ((32 : Nat), (0 : Rat)) 32 = (32, 1) := by
    rw [bestStep, cellFitness_blank g t thr hblank row col 32]
    norm_num
  rw [hhead, foldl_bestStep_blank g t thr hblank row col]

/-- Writing the replicated value back into a replicated list changes
nothing. -/
theorem set_replicate_self (v : Nat) : ∀ (n i : Nat),
    (List.replicate n v).set i v = List.replicate n v := by
  intro n
  induction n with
  | zero => intro i; rfl
  | succ n ih =>
    intro i
    cases i with
    | zero => simp [List.replicate_succ]
    | succ i => simp [List.replicate_succ, ih]

/-- Brute-force position loop on a blank target: the all-space grid is a
fixed point, whatever the callback decides. -/
theorem bruteGo_blank (g : AsciiGen) (t : Img) (thr w n : Nat)
    (cb : Option (Nat → Bool)) (hblank : ∀ p ∈ t.data, p ≤ thr) :
    ∀ fuel pos, bruteGo g t thr w cb fuel pos (List.replicate n 32) =
      List.replicate n 32 := by
  intro fuel
  induction fuel with
  | zero => intro pos; rfl
  | succ fuel ih =>
    intro pos
    cases cb with
    | none =>
      rw [bruteGo, find_best_blank g t thr hblank, set_replicate_self]
      exact ih (pos + 1)
    | some f =>
      rw [bruteGo, find_best_blank g t thr hblank, set_replicate_self]
      by_cases hf : f (pos + 1) = true
      · simp only [hf, if_pos]
        exact ih (pos + 1)
      · simp only [Bool.not_eq_true] at hf
        simp [hf]

/-- C6: brute-force search on a uniformly background target (every pixel at
or below the threshold) yields the all-space grid, because each cell has zero
relevant pixels, making the space character score 1.0 and every other
character score 0. -/
theorem c6_blank_target_gives_all_spaces (g : AsciiGen) (t : Img)
    (thr w h : Nat) (cb : Option (Nat → Bool))
    (hblank : ∀ p ∈ t.data, p ≤ thr) :
    brute_generate_chars g t thr w h cb = List.replicate (w * h) 32 ∧
    (∀ row col, calculate_fitness_for_position g t thr row col 32 = 1) ∧
    (∀ row col c, c ≠ 32 →
      calculate_fitness_for_position g t thr row col c = 0) := by
  refine ⟨?_, ?_, ?_⟩
  · rw [brute_generate_chars]
    exact bruteGo_blank g t thr w (w * h) cb hblank (w * h) 0
  · intro row col
    rw [cellFitness_blank g t thr hblank row col 32]
    simp
  · intro row col c hc
    rw [cellFitness_blank g t thr hblank row col c]
    simp [hc]

/-- Witness for C6: the all-black 1x1 target at threshold 50 (the
dark-background threshold) yields the single-space grid. -/
theorem c6_witness :
    brute_generate_chars gAll255 tZero 50 1 1 none = [32] := by
  have h := c6_blank_target_gives_all_spaces gAll255 tZero 50 1 1 none (by decide)
  simpa using h.1

/-- Count of lit target pixels in a row prefix (proof device for bounding the
fitness score). -/
def litRow (t : Img) (thr y : Nat) : Nat → Nat
  | 0 => 0
  | x + 1 => litRow t thr y x + (if evalIsLit thr (t.get x y) then 1 else 0)

/-- Count of lit target pixels in a rectangle (proof device). -/
def litRect (t : Img) (thr mw : Nat) : Nat → Nat
  | 0 => 0
  | y + 1 => litRect t thr mw y + litRow t thr y mw

/-- One pixel's fitness contribution is at most its lit indicator, for any
nonnegative penalty. -/
theorem pixScore_le_ind (pen : Rat) (hpen : 0 ≤ pen) (thr ap tp : Nat) :
    pixScore pen thr ap tp ≤ (if evalIsLit thr tp then (1 : Rat) else 0) := by
  rw [pixScore]
  split_ifs <;> linarith

/-- A row's fitness contribution is at most its lit-pixel count. -/
theorem rowScore_le_litRow (pen : Rat) (hpen : 0 ≤ pen) (thr : Nat)
    (a t : Img) (y : Nat) :
    ∀ mw, rowScore pen thr a t y mw ≤ ((litRow t thr y mw : Nat) : Rat) := by
  intro mw
  induction mw with
  | zero => simp [rowScore, litRow]
  | succ mw ih =>
    rw [rowScore, litRow]
    push_cast [apply_ite (fun n : Nat => (n : Rat))]
    exact add_le_add ih (pixScore_le_ind pen hpen thr _ _)

/-- A rectangle's fitness score is at most its lit-pixel count. -/
theorem rectScore_le_litRect (pen : Rat) (hpen : 0 ≤ pen) (thr : Nat)
    (a t : Img) (mw : Nat) :
    ∀ mh, rectScore pen thr a t mw mh ≤ ((litRect t thr mw mh : Nat) : Rat) := by
  intro mh
  induction mh with
  | zero => simp [rectScore, litRect]
  | succ mh ih =>
    rw [rectScore, litRect]
    push_cast
    exact add_le_add ih (rowScore_le_litRow pen hpen thr a t mh mw)

/-- Row lit count grows with the row prefix length. -/
theorem litRow_mono (t : Img) (thr y : Nat) :
    ∀ d mw, litRow t thr y mw ≤ litRow t thr y (mw + d) := by
  intro d
  induction d with
  | zero => intro mw; exact Nat.le_refl _
  | succ d ih =>
    intro mw
    calc litRow t thr y mw ≤ litRow t thr y (mw + d) := ih mw
    _ ≤ litRow t thr y (mw + d + 1) := by rw [litRow]; omega
    _ = litRow t thr y (mw + (d + 1)) := by ring_nf

/-- Rectangle lit count grows with both dimensions. -/
theorem litRect_mono (t : Img) (thr : Nat) (mw mw' : Nat) (hw : mw ≤ mw') :
    ∀ d mh, litRect t thr mw mh ≤ litRect t thr mw' (mh + d) := by
  have hrow : ∀ mh, litRect t thr mw mh ≤ litRect t thr mw' mh := by
    intro mh
    induction mh with
    | zero => exact Nat.le_refl _
    | succ mh ih =>
      rw [litRect, litRect]
      have := litRow_mono t thr mh (mw' - mw) mw
      rw [Nat.add_sub_cancel' hw] at this
      omega
  intro d
  induction d with
  | zero => intro mh; exact hrow mh
  | succ d ih =>
    intro mh
    calc litRect t thr mw mh ≤ litRect t thr mw' (mh + d) := ih mh
    _ ≤ litRect t thr mw' (mh + d + 1) := by rw [litRect]; omega
    _ = litRect t thr mw' (mh + (d + 1)) := by ring_nf

/-- Row lit count of a full row equals the lit count of its slice of the
data list. -/
theorem litRow_eq_countP (t : Img) (thr y : Nat) :
    ∀ mw, y * t.width + mw ≤ t.data.length →
      litRow t thr y mw =
        ((t.data.drop (y * t.width)).take mw).countP (fun p => evalIsLit thr p) := by
  intro mw
  induction mw with
  | zero => intro _; simp [litRow]
  | succ mw ih =>
    intro hle
    rw [litRow, ih (by omega), List.take_succ]
    have hidx : (t.data.drop (y * t.width))[mw]? = some (t.get mw y) := by
      rw [List.getElem?_drop, Img.get]
      have hin : y * t.width + mw < t.data.length := by omega
      rw [List.getD_eq_getElem _ _ hin, List.getElem?_eq_getElem hin]
    rw [hidx, List.countP_append]
    simp [List.countP_cons]

/-- The lit-rectangle count over the whole image equals the dark-mode
non-background pixel count. -/
theorem litRect_eq_countP (t : Img)
    (hwf : t.data.length = t.width * t.height) (thr : Nat) :
    litRect t thr t.width t.height =
      t.data.countP (fun p => evalIsLit thr p) := by
  have hstep : ∀ mh, mh ≤ t.height →
      litRect t thr t.width mh =
        (t.data.take (t.width * mh)).countP (fun p => evalIsLit thr p) := by
    intro mh
    induction mh with
    | zero => intro _; simp [litRect]
    | succ mh ih =>
      intro hmh
      rw [litRect, ih (by omega)]
      have hmul : t.width * (mh + 1) = t.width * mh + t.width := by ring
      rw [hmul, List.take_add, List.countP_append]
      congr 1
      rw [litRow_eq_countP t thr mh t.width (by
        rw [hwf]
        calc mh * t.width + t.width = (mh + 1) * t.width := by ring
        _ ≤ t.height * t.width := Nat.mul_le_mul_right _ hmh
        _ = t.width * t.height := Nat.mul_comm _ _)]
      rw [Nat.mul_comm t.width mh]
  have := hstep t.height (Nat.le_refl _)
  rwa [← hwf, List.take_length] at this

/-- Fitness score over the compared overlap is at most the dark-mode
non-background pixel count of the whole target. -/
theorem rectScore_le_count (g : AsciiGen) (target : Img) (chars : List Nat)
    (w h : Nat) (thr : Nat) (pen : Rat) (hpen : 0 ≤ pen)
    (hwf : target.data.length = target.width * target.height) :
    rectScore pen thr (generate_ascii_image g chars w h) target
        (min (generate_ascii_image g chars w h).width target.width)
        (min (generate_ascii_image g chars w h).height target.height) ≤
      ((count_non_background_pixels target thr false : Nat) : Rat) := by
  set a := generate_ascii_image g chars w h
  have h1 := rectScore_le_litRect pen hpen thr a target
    (min a.width target.width) (min a.height target.height)
  have h2 : litRect target thr (min a.width target.width)
      (min a.height target.height) ≤ litRect target thr target.width target.height := by
    have hmono := litRect_mono target thr (min a.width target.width) target.width
      (Nat.min_le_right _ _) (target.height - min a.height target.height)
      (min a.height target.height)
    rwa [Nat.add_sub_cancel' (Nat.min_le_right a.height target.height)] at hmono
  have h3 := litRect_eq_countP target hwf thr
  have h4 : count_non_background_pixels target thr false =
      target.data.countP (fun p => evalIsLit thr p) := by
    rw [count_non_background_pixels]
    rfl
  have h5 : ((litRect target thr (min a.width target.width)
        (min a.height target.height) : Nat) : Rat)
      ≤ ((litRect target thr target.width target.height : Nat) : Rat) := by
    exact_mod_cast h2
  have h6 : ((litRect target thr target.width target.height : Nat) : Rat)
      = ((count_non_background_pixels target thr false : Nat) : Rat) := by
    rw [h3, h4]
  exact h1.trans (h5.trans_eq h6)

/-- C1 amended: both whole-grid evaluators are clamped below at 0 for every
supplied foreground count, and are at most 1 whenever the supplied count is
the dark-background-mode count of the same target (the pairing
`GeneticAlgorithm::new`/`BruteForceGenerator::new` produces when
`white_background` is false).  In white-background mode the upper bound can
fail (see the counterexample). -/
theorem c1_fitness_bounds (g : AsciiGen) (target : Img) (chars : List Nat)
    (w h : Nat) (total : Rat) (thr : Nat)
    (hwf : target.data.length = target.width * target.height) :
    (0 ≤ calculate_fitness_for_chars_static g target chars w h total thr ∧
     0 ≤ brute_calculate_fitness g target chars w h total thr) ∧
    (calculate_fitness_for_chars_static g target chars w h
        ((count_non_background_pixels target thr false : Nat) : Rat) thr ≤ 1 ∧
     brute_calculate_fitness g target chars w h
        ((count_non_background_pixels target thr false : Nat) : Rat) thr ≤ 1) := by
  constructor
  · constructor
    · simp only [calculate_fitness_for_chars_static]
      split_ifs
      · exact le_refl 0
      · exact le_max_left 0 _
    · simp only [brute_calculate_fitness]
      split_ifs with h1 h2
      · exact le_refl 0
      · exact le_refl 0
      · rw [not_lt] at h2
        exact h2
  · have hcount := rectScore_le_count g target chars w h thr
    constructor
    · simp only [calculate_fitness_for_chars_static]
      split_ifs with h0
      · norm_num
      · have hpos : (0 : Rat) < ((count_non_background_pixels target thr false : Nat) : Rat) := by
          rcases Nat.eq_zero_or_pos (count_non_background_pixels target thr false) with hz | hp
          · exact absurd (by rw [hz]; norm_num) h0
          · exact_mod_cast hp
        apply max_le (by norm_num)
        rw [div_le_one hpos]
        exact hcount (1/100) (by norm_num) hwf
    · simp only [brute_calculate_fitness]
      split_ifs with h0 h1
      · norm_num
      · norm_num
      · have hpos : (0 : Rat) < ((count_non_background_pixels target thr false : Nat) : Rat) := by
          rcases Nat.eq_zero_or_pos (count_non_background_pixels target thr false) with hz | hp
          · exact absurd (by rw [hz]; norm_num) h0
          · exact_mod_cast hp
        rw [div_le_one hpos]
        exact hcount (1/200) (by norm_num) hwf

/-- Target used by the C1 counterexample: three pixels wide, one high, with
two pure-white pixels and one mid-gray pixel. -/
def tC1 : Img := ⟨3, 1, [255, 255, 100]⟩

/-- C1 counterexample: in white-background mode (threshold 200, count taken
with `white_background = true` exactly as the constructors do), the fitness
of the all-lit candidate exceeds 1 in both evaluators: the evaluators score
pixels above the threshold while the count tallies pixels below it, so two
matched white pixels are divided by a count of one. -/
theorem c1_white_mode_exceeds_one :
    1 < calculate_fitness_for_chars_static gAll255 tC1 [42, 42, 42] 3 1
        ((count_non_background_pixels tC1 200 true : Nat) : Rat) 200 ∧
    1 < brute_calculate_fitness gAll255 tC1 [42, 42, 42] 3 1
        ((count_non_background_pixels tC1 200 true : Nat) : Rat) 200 := by
  constructor <;>
    norm_num [calculate_fitness_for_chars_static, brute_calculate_fitness,
      count_non_background_pixels, countIsLit, List.countP_cons, rectScore, rowScore,
      pixScore, evalIsLit, generate_ascii_image, generate_ascii_image_with_background,
      placeChars, copy_char_to_image, copyGo, copyRowGo, Img.put, Img.get,
      gAll255, tC1, List.replicate_succ]

/-- Witness for C1 at a concrete well-formed target. -/
theorem c1_witness :
    0 ≤ calculate_fitness_for_chars_static gAll255 tZero [32] 1 1 (5/2) 50 ∧
    calculate_fitness_for_chars_static gAll255 tZero [32] 1 1
      ((count_non_background_pixels tZero 50 false : Nat) : Rat) 50 ≤ 1 := by
  have h := c1_fitness_bounds gAll255 tZero [32] 1 1 (5/2) 50 rfl
  exact ⟨h.1.1, h.2.1⟩

/-- Pixel writes preserve an image's dimensions and data length. -/
theorem put_dims (img : Img) (x y v : Nat) :
    (img.put x y v).width = img.width ∧ (img.put x y v).height = img.height ∧
      (img.put x y v).data.length = img.data.length := by
  simp [Img.put]

/-- Cell-row copying preserves dimensions and data length. -/
theorem copyRowGo_dims (ci : Img) (sx sy y : Nat) :
    ∀ xc img, (copyRowGo ci sx sy y xc img).width = img.width ∧
      (copyRowGo ci sx sy y xc img).height = img.height ∧
      (copyRowGo ci sx sy y xc img).data.length = img.data.length := by
  intro xc
  induction xc with
  | zero => intro img; exact ⟨rfl, rfl, rfl⟩
  | succ xc ih =>
    intro img
    rw [copyRowGo]
    split
    · obtain ⟨h1, h2, h3⟩ := ih img
      simp [Img.put, h1, h2, h3]
    · exact ih img

/-- Cell copying preserves dimensions and data length. -/
theorem copyGo_dims (ci : Img) (sx sy xc : Nat) :
    ∀ yc img, (copyGo ci sx sy xc yc img).width = img.width ∧
      (copyGo ci sx sy xc yc img).height = img.height ∧
      (copyGo ci sx sy xc yc img).data.length = img.data.length := by
  intro yc
  induction yc with
  | zero => intro img; exact ⟨rfl, rfl, rfl⟩
  | succ yc ih =>
    intro img
    rw [copyGo]
    obtain ⟨h1, h2, h3⟩ := ih img
    obtain ⟨g1, g2, g3⟩ := copyRowGo_dims ci sx sy yc xc (copyGo ci sx sy xc yc img)
    exact ⟨g1.trans h1, g2.trans h2, g3.trans h3⟩

/-- Character placing preserves dimensions and data length. -/
theorem placeChars_dims (g : AsciiGen) (white : Bool) (w h : Nat) :
    ∀ l i img, (placeChars g white w h l i img).width = img.width ∧
      (placeChars g white w h l i img).height = img.height ∧
      (placeChars g white w h l i img).data.length = img.data.length := by
  intro l
  induction l with
  | nil => intro i img; exact ⟨rfl, rfl, rfl⟩
  | cons c rest ih =>
    intro i img
    rw [placeChars]
    split
    · exact ⟨rfl, rfl, rfl⟩
    · rcases hc : g.cache c with _ | ci
      · simpa [hc] using ih (i + 1) img
      · obtain ⟨h1, h2, h3⟩ := ih (i + 1)
          (copy_char_to_image g img (if white then ci.invert else ci)
            ((i % w) * g.char_width) ((i / w) * g.char_height))
        obtain ⟨g1, g2, g3⟩ := copyGo_dims (if white then ci.invert else ci)
          ((i % w) * g.char_width) ((i / w) * g.char_height) g.char_width g.char_height img
        simp only [hc]
        rw [copy_char_to_image] at h1 h2 h3
        exact ⟨h1.trans g1, h2.trans g2, h3.trans g3⟩

/-- Character placing stops as soon as the running index leaves the grid. -/
theorem placeChars_stop (g : AsciiGen) (white : Bool) (w h : Nat) :
    ∀ l i img, h ≤ i / w → placeChars g white w h l i img = img := by
  intro l
  cases l with
  | nil => intro i img _; rfl
  | cons c rest =>
    intro i img hbreak
    rw [placeChars, if_pos hbreak]

/-- Character placing only consumes characters with cell index below
`w * h`: the list may be truncated there. -/
theorem placeChars_take (g : AsciiGen) (white : Bool) (w h : Nat) (hw : 0 < w) :
    ∀ l i img, placeChars g white w h l i img =
      placeChars g white w h (l.take (w * h - i)) i img := by
  intro l
  induction l with
  | nil => intro i img; rw [List.take_nil]
  | cons c rest ih =>
    intro i img
    by_cases hbreak : h ≤ i / w
    · have hge : w * h ≤ i := by
        calc w * h = h * w := Nat.mul_comm _ _
        _ ≤ (i / w) * w := Nat.mul_le_mul_right _ hbreak
        _ ≤ i := Nat.div_mul_le_self _ _
      rw [placeChars_stop g white w h _ i img hbreak,
        show w * h - i = 0 from by omega, List.take_zero]
      rfl
    · have hlt : i < w * h := by
        have h1 := (Nat.div_lt_iff_lt_mul hw).mp (Nat.lt_of_not_le hbreak)
        rwa [Nat.mul_comm] at h1
      rw [show w * h - i = (w * h - (i + 1)) + 1 from by omega, List.take_succ_cons,
        placeChars, placeChars, if_neg hbreak, if_neg hbreak]
      exact ih (i + 1) _

/-- Row-major pixel addresses of distinct in-row-bounds coordinates are
distinct. -/
theorem rowMajor_ne (wd x y px py : Nat) (hx : x < wd) (hpx : px < wd)
    (hne : (x, y) ≠ (px, py)) : y * wd + x ≠ py * wd + px := by
  rcases Nat.lt_trichotomy y py with hlt | heq | hgt
  · apply Nat.ne_of_lt
    calc y * wd + x < y * wd + wd := by omega
    _ = (y + 1) * wd := by ring
    _ ≤ py * wd := Nat.mul_le_mul_right _ hlt
    _ ≤ py * wd + px := Nat.le_add_right _ _
  · subst heq
    have hxpx : x ≠ px := by
      intro hx
      exact hne (by rw [hx])
    omega
  · apply Nat.ne_of_gt
    calc py * wd + px < py * wd + wd := by omega
    _ = (py + 1) * wd := by ring
    _ ≤ y * wd := Nat.mul_le_mul_right _ hgt
    _ ≤ y * wd + x := Nat.le_add_right _ _

/-- A pixel write at an in-bounds column leaves every other in-bounds-column
pixel unchanged. -/
theorem put_get_ne (img : Img) (x y v px py : Nat) (hx : x < img.width)
    (hpx : px < img.width) (hne : (x, y) ≠ (px, py)) :
    (img.put x y v).get px py = img.get px py := by
  rw [Img.put, Img.get, Img.get]
  exact getD_set_ne (rowMajor_ne img.width x y px py hx hpx hne)

/-- Row copying leaves pixels outside the written row span unchanged. -/
theorem copyRowGo_frame (ci : Img) (sx sy y px py : Nat) :
    ∀ xc img, px < img.width →
      (py ≠ sy + y ∨ px < sx ∨ sx + xc ≤ px) →
      (copyRowGo ci sx sy y xc img).get px py = img.get px py := by
  intro xc
  induction xc with
  | zero => intro img _ _; rfl
  | succ xc ih =>
    intro img hpx hdisj
    rw [copyRowGo]
    obtain ⟨hw0, _, _⟩ := copyRowGo_dims ci sx sy y xc img
    have hrec : (copyRowGo ci sx sy y xc img).get px py = img.get px py := by
      apply ih img hpx
      rcases hdisj with h | h | h
      · exact Or.inl h
      · exact Or.inr (Or.inl h)
      · exact Or.inr (Or.inr (by omega))
    split
    · rename_i hin
      rw [put_get_ne _ _ _ _ _ _ (by omega) (by omega) ?_, hrec]
      rcases hdisj with h | h | h
      · intro hcontra
        exact h (by injection hcontra with h1 h2; omega)
      · intro hcontra
        injection hcontra with h1 h2
        omega
      · intro hcontra
        injection hcontra with h1 h2
        omega
    · exact hrec

/-- Rectangle copying leaves pixels outside the written rectangle
unchanged. -/
theorem copyGo_frame (ci : Img) (sx sy xc px py : Nat) :
    ∀ yc img, px < img.width →
      (py < sy ∨ sy + yc ≤ py ∨ px < sx ∨ sx + xc ≤ px) →
      (copyGo ci sx sy xc yc img).get px py = img.get px py := by
  intro yc
  induction yc with
  | zero => intro img _ _; rfl
  | succ yc ih =>
    intro img hpx hdisj
    rw [copyGo]
    obtain ⟨hw0, _, _⟩ := copyGo_dims ci sx sy xc yc img
    rw [copyRowGo_frame ci sx sy yc px py xc _ (by omega) ?_]
    · apply ih img hpx
      rcases hdisj with h | h | h | h
      · exact Or.inl h
      · exact Or.inr (Or.inl (by omega))
      · exact Or.inr (Or.inr (Or.inl h))
      · exact Or.inr (Or.inr (Or.inr h))
    · rcases hdisj with h | h | h | h
      · exact Or.inl (by omega)
      · exact Or.inl (by omega)
      · exact Or.inr (Or.inl h)
      · exact Or.inr (Or.inr h)

/-- Character placing never writes into cell `i` when the character of cell
`i` (if any is supplied) is absent from the cache: the cell's pixels keep
their incoming values.  Pixels of other cells land in disjoint rectangles. -/
theorem placeChars_cell_untouched (g : AsciiGen) (white : Bool) (w h : Nat)
    (hw : 0 < w) (i dx dy : Nat) (hi : i < w * h) (hdx : dx < g.char_width)
    (hdy : dy < g.char_height) :
    ∀ l j img, img.width = w * g.char_width →
      (∀ m, m < l.length → j + m = i → g.cache (l.getD m 0) = none) →
      (placeChars g white w h l j img).get ((i % w) * g.char_width + dx)
          ((i / w) * g.char_height + dy)
        = img.get ((i % w) * g.char_width + dx) ((i / w) * g.char_height + dy) := by
  have hpxw : ∀ wd : Nat, (i % w) * g.char_width + dx < w * g.char_width := by
    intro _
    calc (i % w) * g.char_width + dx < (i % w) * g.char_width + g.char_width := by omega
    _ = (i % w + 1) * g.char_width := by ring
    _ ≤ w * g.char_width := Nat.mul_le_mul_right _ (Nat.mod_lt i hw)
  intro l
  induction l with
  | nil => intro j img _ _; rfl
  | cons c rest ih =>
    intro j img hwidth hnone
    rw [placeChars]
    split
    · rfl
    · rename_i hbreak
      have hshift : ∀ m, m < rest.length → (j + 1) + m = i →
          g.cache (rest.getD m 0) = none := by
        intro m hm heq
        have := hnone (m + 1) (by simpa using Nat.succ_lt_succ hm) (by omega)
        rwa [List.getD_cons_succ] at this
      by_cases hji : j = i
      · subst hji
        have hc : g.cache c = none := hnone 0 (by simp) (by omega)
        simp only [hc]
        exact ih (j + 1) img hwidth (fun m hm heq => absurd heq (by omega))
      · rcases hcache : g.cache c with _ | ci
        · simp only [hcache]
          exact ih (j + 1) img hwidth hshift
      -- cached character of a different cell: framed out of our cell
        · simp only [hcache]
          rw [ih (j + 1) _ ?hw2 hshift]
          case hw2 =>
            rw [copy_char_to_image]
            obtain ⟨h1, _, _⟩ := copyGo_dims (if white then ci.invert else ci)
              ((j % w) * g.char_width) ((j / w) * g.char_height)
              g.char_width g.char_height img
            rw [h1, hwidth]
          rw [copy_char_to_image]
          have hj : j < w * h := by
            have h1 := (Nat.div_lt_iff_lt_mul hw).mp (Nat.lt_of_not_le hbreak)
            rwa [Nat.mul_comm] at h1
          have hne : j % w ≠ i % w ∨ j / w ≠ i / w := by
            by_contra hcon
            push_neg at hcon
            apply hji
            have h1 := Nat.div_add_mod j w
            have h2 := Nat.div_add_mod i w
            rw [hcon.1, hcon.2] at h1
            omega
          apply copyGo_frame
          · rw [hwidth]
            exact hpxw 0
          · rcases hne with hxne | hyne
            · rcases Nat.lt_or_ge (j % w) (i % w) with hlt | hge
              · refine Or.inr (Or.inr (Or.inr ?_))
                calc (j % w) * g.char_width + g.char_width
                    = (j % w + 1) * g.char_width := by ring
                  _ ≤ (i % w) * g.char_width := Nat.mul_le_mul_right _ hlt
                  _ ≤ (i % w) * g.char_width + dx := Nat.le_add_right _ _
              · have hgt : i % w < j % w := Nat.lt_of_le_of_ne hge (Ne.symm hxne)
                refine Or.inr (Or.inr (Or.inl ?_))
                calc (i % w) * g.char_width + dx
                    < (i % w) * g.char_width + g.char_width := by omega
                  _ = (i % w + 1) * g.char_width := by ring
                  _ ≤ (j % w) * g.char_width := Nat.mul_le_mul_right _ hgt
            · rcases Nat.lt_or_ge (j / w) (i / w) with hlt | hge
              · refine Or.inr (Or.inl ?_)
                calc (j / w) * g.char_height + g.char_height
                    = (j / w + 1) * g.char_height := by ring
                  _ ≤ (i / w) * g.char_height := Nat.mul_le_mul_right _ hlt
                  _ ≤ (i / w) * g.char_height + dy := Nat.le_add_right _ _
              · have hgt : i / w < j / w := Nat.lt_of_le_of_ne hge (Ne.symm hyne)
                refine Or.inl ?_
                calc (i / w) * g.char_height + dy
                    < (i / w) * g.char_height + g.char_height := by omega
                  _ = (i / w + 1) * g.char_height := by ring
                  _ ≤ (j / w) * g.char_height := Nat.mul_le_mul_right _ hgt

/-- C10: for positive grid width (the program always has one; zero width
would panic in the source's modulo), bitmap composition returns an image of
exactly `w*char_width` by `h*char_height` pixels, characters at indices at or
beyond `w*h` never affect the output, and a cell whose character code misses
the cache keeps the background color at every one of its pixels. -/
theorem c10_compose_dims_truncation_missing_cell (g : AsciiGen)
    (chars : List Nat) (w h : Nat) (white : Bool) (hw : 0 < w) :
    ((generate_ascii_image_with_background g chars w h white).width
        = w * g.char_width ∧
     (generate_ascii_image_with_background g chars w h white).height
        = h * g.char_height ∧
     (generate_ascii_image_with_background g chars w h white).data.length
        = w * g.char_width * (h * g.char_height)) ∧
    generate_ascii_image_with_background g chars w h white
      = generate_ascii_image_with_background g (chars.take (w * h)) w h white ∧
    ∀ i dx dy, i < w * h → dx < g.char_width → dy < g.char_height →
      (i < chars.length → g.cache (chars.getD i 0) = none) →
      (generate_ascii_image_with_background g chars w h white).get
          ((i % w) * g.char_width + dx) ((i / w) * g.char_height + dy)
        = (if white then 255 else 0) := by
  refine ⟨?_, ?_, ?_⟩
  · obtain ⟨h1, h2, h3⟩ := placeChars_dims g white w h chars 0
      ⟨w * g.char_width, h * g.char_height,
       List.replicate (w * g.char_width * (h * g.char_height)) (if white then 255 else 0)⟩
    rw [generate_ascii_image_with_background]
    exact ⟨h1, h2, by simpa using h3⟩
  · rw [generate_ascii_image_with_background, generate_ascii_image_with_background,
      placeChars_take g white w h hw chars 0,
      placeChars_take g white w h hw (chars.take (w * h)) 0]
    rw [Nat.sub_zero, List.take_take, Nat.min_self]
  · intro i dx dy hi hdx hdy hcache
    rw [generate_ascii_image_with_background,
      placeChars_cell_untouched g white w h hw i dx dy hi hdx hdy chars 0 _ rfl
        (fun m hm heq => by
          have hmi : m = i := by omega
          subst hmi
          exact hcache hm)]
    have hpx : (i % w) * g.char_width + dx < w * g.char_width := by
      calc (i % w) * g.char_width + dx < (i % w) * g.char_width + g.char_width := by omega
      _ = (i % w + 1) * g.char_width := by ring
      _ ≤ w * g.char_width := Nat.mul_le_mul_right _ (Nat.mod_lt i hw)
    have hpy : (i / w) * g.char_height + dy < h * g.char_height := by
      have hdivlt : i / w < h := by
        apply (Nat.div_lt_iff_lt_mul hw).mpr
        rwa [Nat.mul_comm] at hi
      calc (i / w) * g.char_height + dy < (i / w) * g.char_height + g.char_height := by omega
      _ = (i / w + 1) * g.char_height := by ring
      _ ≤ h * g.char_height := Nat.mul_le_mul_right _ hdivlt
    have hidx : ((i / w) * g.char_height + dy) * (w * g.char_width)
        + ((i % w) * g.char_width + dx)
        < w * g.char_width * (h * g.char_height) := by
      calc ((i / w) * g.char_height + dy) * (w * g.char_width)
            + ((i % w) * g.char_width + dx)
          < ((i / w) * g.char_height + dy) * (w * g.char_width) + w * g.char_width := by
            omega
        _ = ((i / w) * g.char_height + dy + 1) * (w * g.char_width) := by ring
        _ ≤ (h * g.char_height) * (w * g.char_width) := Nat.mul_le_mul_right _ hpy
        _ = w * g.char_width * (h * g.char_height) := Nat.mul_comm _ _
    simp [Img.get, List.getD, List.getElem?_replicate, hidx]

/-- Generator whose cache is empty, used by the C10 witness. -/
def gNone : AsciiGen := { char_width := 1, char_height := 1, cache := fun _ => none }

/-- Witness for C10: a 1x1 grid over an empty cache is a 1x1 image whose
single pixel keeps the black background. -/
theorem c10_witness :
    (generate_ascii_image_with_background gNone [7] 1 1 false).width
      = 1 * gNone.char_width ∧
    (generate_ascii_image_with_background gNone [7] 1 1 false).get 0 0 = 0 := by
  have h := c10_compose_dims_truncation_missing_cell gNone [7] 1 1 false (by norm_num)
  refine ⟨h.1.1, ?_⟩
  have h3 := h.2.2 0 0 0 (by norm_num) (by decide) (by decide) (fun _ => rfl)
  simpa using h3
